import Mathlib

/-!
# Verification of the pokerbot core (`src/gameplay.rs`)

Shallow embedding of the card model, 5-card hand ranker, 7-card evaluator and
the nut finder from `src/gameplay.rs`, together with theorems settling the
spec claims.  Rust panics (`expect`, `unwrap`, `unreachable!`) are modelled by
`Option`: a function returns `none` exactly when the Rust code would panic.
-/

namespace Pokerbot

/-- `Value` of a card, mirroring `enum Value` (declaration order Deuce .. Ace). -/
inductive Value : Type
  | Deuce | Trey | Four | Five | Six | Seven | Eight | Nine
  | Ten | Jack | Queen | King | Ace
  deriving DecidableEq, Repr

/-- `Value::as_u8`: the 0..12 ordinal (also the derived `Ord` rank, since the
Rust `derive(Ord)` follows declaration order). -/
def Value.toNat : Value → Nat
  | .Deuce => 0 | .Trey => 1 | .Four => 2 | .Five => 3 | .Six => 4
  | .Seven => 5 | .Eight => 6 | .Nine => 7 | .Ten => 8 | .Jack => 9
  | .Queen => 10 | .King => 11 | .Ace => 12

/-- `Value::as_u8_straight`: the 1..13 straight ordinal. -/
def Value.straightU8 (v : Value) : Nat := v.toNat + 1

/-- `Value::from_u8_straight`; the Rust `unreachable!()` arm is `none`. -/
def fromU8Straight : Nat → Option Value
  | 0 => some .Ace
  | 1 => some .Deuce | 2 => some .Trey | 3 => some .Four | 4 => some .Five
  | 5 => some .Six | 6 => some .Seven | 7 => some .Eight | 8 => some .Nine
  | 9 => some .Ten | 10 => some .Jack | 11 => some .Queen | 12 => some .King
  | 13 => some .Ace
  | _ => none

/-- `enum Suit`. -/
inductive Suit : Type
  | Spades | Hearts | Diamonds | Clubs
  deriving DecidableEq, Repr, Fintype

/-- `Suit::as_u8`. -/
def Suit.toNat : Suit → Nat
  | .Spades => 0 | .Hearts => 1 | .Diamonds => 2 | .Clubs => 3

/-- `struct Card(Value, Suit)`. -/
structure Card : Type where
  value : Value
  suit : Suit
  deriving DecidableEq, Repr

/-- `Card::as_u8`: `(value << 2) | suit`, the canonical sort key. -/
def Card.asU8 (c : Card) : Nat := c.value.toNat * 4 + c.suit.toNat

/-- `Itertools::all_unique` over a list. -/
def allUnique {α : Type} [DecidableEq α] : List α → Bool
  | [] => true
  | x :: xs => decide (x ∉ xs) && allUnique xs

/-- The 13 values in descending `Ord` order (a `BTreeSet<Value>` iterated
with `.rev()` visits the present values in this order). -/
def allValuesDesc : List Value :=
  [.Ace, .King, .Queen, .Jack, .Ten, .Nine, .Eight, .Seven, .Six,
   .Five, .Four, .Trey, .Deuce]

/-- Number of cards in `cs` carrying value `v` (the `counts()` map). -/
def countOf (cs : List Card) (v : Value) : Nat :=
  (cs.filter (fun c => decide (c.value = v))).length

/-- The `BTreeSet<Value>` stored under key `c` in `ValueMap`, iterated in
descending value order (`.rev()`). -/
def valuesWithCount (cs : List Card) (c : Nat) : List Value :=
  allValuesDesc.filter (fun v => decide (countOf cs v = c))

/-- How many distinct values occur exactly `c` times in `cs`: the size of the
`BTreeSet<Value>` stored under key `c` in `ValueMap`. -/
def kCount (cs : List Card) (c : Nat) : Nat :=
  (valuesWithCount cs c).length

/-- `ValueMap::to_count_pairs`: for every multiplicity that occurs (taken in
descending order) the pair (multiplicity, number of values with it). -/
def toCountPairs (cs : List Card) : List (Nat × Nat) :=
  ((List.range (cs.length + 1)).reverse.map (fun c => (c, kCount cs c))).filter
    (fun p => decide (p.1 ≠ 0) && decide (p.2 ≠ 0))

/-- `ValueMap::to_sorted_values`: values grouped by multiplicity descending,
within a group by value descending. -/
def toSortedValues (cs : List Card) : List Value :=
  ((List.range (cs.length + 1)).reverse.filter (fun c => decide (c ≠ 0))).flatMap
    (valuesWithCount cs)

/-- `CardsCombined::is_flush` (`all_equal` over the suits; true when empty). -/
def isFlushB : List Card → Bool
  | [] => true
  | c :: rest => rest.all (fun d => decide (d.suit = c.suit))

/-- `CardsCombined::to_sorted_values`: the raw values sorted descending. -/
def sortedValuesDesc (cs : List Card) : List Value :=
  List.insertionSort (fun a b => b.toNat ≤ a.toNat) (cs.map Card.value)

/-- `windows(2).all(|w| w[1] == w[0] + 1)` on a sorted list. -/
def chainConsec : List Nat → Bool
  | [] => true
  | [_] => true
  | a :: b :: rest => decide (b = a + 1) && chainConsec (b :: rest)

/-- `CardsCombined::check_straight` on the straight ordinals (`sort_unstable`
then consecutive-window check, answering with the last = largest ordinal). -/
def checkStraight (u8s : List Nat) : Option Value :=
  if chainConsec (List.insertionSort (· ≤ ·) u8s) then
    match (List.insertionSort (· ≤ ·) u8s).getLast? with
    | some m => fromU8Straight m
    | none => none
  else none

/-- Replace the first occurrence of `a` by `b` (the wheel Ace remap loop). -/
def replaceFirst : List Nat → Nat → Nat → List Nat
  | [], _, _ => []
  | x :: xs, a, b => if x = a then b :: xs else x :: replaceFirst xs a b

/-- `CardsCombined::is_straight`, including the wheel (A-2-3-4-5) retry. -/
def isStraight (cs : List Card) : Option Value :=
  match checkStraight (cs.map (fun c => c.value.straightU8)) with
  | some v => some v
  | none =>
    if decide (13 ∈ cs.map (fun c => c.value.straightU8)) then
      checkStraight (replaceFirst (cs.map (fun c => c.value.straightU8)) 13 0)
    else none

/-- `enum SortedHandValue` with its kicker payloads (fixed-size arrays become
explicit fields). -/
inductive SortedHandValue : Type
  | RoyalFlush
  | StraightFlush (v : Value)
  | Quads (q k : Value)
  | FullHouse (t p : Value)
  | Flush (a b c d e : Value)
  | Straight (v : Value)
  | Trips (t k1 k2 : Value)
  | TwoPair (ph pl k : Value)
  | OnePair (p k1 k2 k3 : Value)
  | HighCard (a b c d e : Value)
  deriving DecidableEq, Repr

/-- Derived `Ord` on `Value` (declaration order = `toNat` order). -/
def valueCmp (a b : Value) : Ordering := compare a.toNat b.toNat

/-- Lexicographic comparison of `[Value; 2]` arrays. -/
def lex2 (a1 a2 b1 b2 : Value) : Ordering :=
  match valueCmp a1 b1 with
  | .eq => valueCmp a2 b2
  | o => o

/-- Lexicographic comparison of `[Value; 3]` arrays. -/
def lex3 (a1 a2 a3 b1 b2 b3 : Value) : Ordering :=
  match valueCmp a1 b1 with
  | .eq => lex2 a2 a3 b2 b3
  | o => o

/-- Lexicographic comparison of `[Value; 4]` arrays. -/
def lex4 (a1 a2 a3 a4 b1 b2 b3 b4 : Value) : Ordering :=
  match valueCmp a1 b1 with
  | .eq => lex3 a2 a3 a4 b2 b3 b4
  | o => o

/-- Lexicographic comparison of `[Value; 5]` arrays. -/
def lex5 (a1 a2 a3 a4 a5 b1 b2 b3 b4 b5 : Value) : Ordering :=
  match valueCmp a1 b1 with
  | .eq => lex4 a2 a3 a4 a5 b2 b3 b4 b5
  | o => o

/-- `impl Ord for SortedHandValue` (the explicit cascade match). -/
def shvCmp : SortedHandValue → SortedHandValue → Ordering
  | .RoyalFlush, .RoyalFlush => .eq
  | .RoyalFlush, _ => .gt
  | _, .RoyalFlush => .lt
  | .StraightFlush a, .StraightFlush b => valueCmp a b
  | .StraightFlush _, _ => .gt
  | _, .StraightFlush _ => .lt
  | .Quads a1 a2, .Quads b1 b2 => lex2 a1 a2 b1 b2
  | .Quads _ _, _ => .gt
  | _, .Quads _ _ => .lt
  | .FullHouse a1 a2, .FullHouse b1 b2 => lex2 a1 a2 b1 b2
  | .FullHouse _ _, _ => .gt
  | _, .FullHouse _ _ => .lt
  | .Flush a1 a2 a3 a4 a5, .Flush b1 b2 b3 b4 b5 => lex5 a1 a2 a3 a4 a5 b1 b2 b3 b4 b5
  | .Flush _ _ _ _ _, _ => .gt
  | _, .Flush _ _ _ _ _ => .lt
  | .Straight a, .Straight b => valueCmp a b
  | .Straight _, _ => .gt
  | _, .Straight _ => .lt
  | .Trips a1 a2 a3, .Trips b1 b2 b3 => lex3 a1 a2 a3 b1 b2 b3
  | .Trips _ _ _, _ => .gt
  | _, .Trips _ _ _ => .lt
  | .TwoPair a1 a2 a3, .TwoPair b1 b2 b3 => lex3 a1 a2 a3 b1 b2 b3
  | .TwoPair _ _ _, _ => .gt
  | _, .TwoPair _ _ _ => .lt
  | .OnePair a1 a2 a3 a4, .OnePair b1 b2 b3 b4 => lex4 a1 a2 a3 a4 b1 b2 b3 b4
  | .OnePair _ _ _ _, _ => .gt
  | _, .OnePair _ _ _ _ => .lt
  | .HighCard a1 a2 a3 a4 a5, .HighCard b1 b2 b3 b4 b5 =>
      lex5 a1 a2 a3 a4 a5 b1 b2 b3 b4 b5

/-- `impl From<CardsCombined<5>> for HandValue`.  The Rust `unwrap` /
`unreachable!` paths are `none`. -/
def handValue5 (cs : List Card) : Option SortedHandValue :=
  match isStraight cs with
  | some largest =>
    if isFlushB cs then
      if largest = .Ace then some .RoyalFlush else some (.StraightFlush largest)
    else some (.Straight largest)
  | none =>
    if isFlushB cs then
      match sortedValuesDesc cs with
      | [a, b, c, d, e] => some (.Flush a b c d e)
      | _ => none
    else
      match toCountPairs cs, toSortedValues cs with
      | [(4, 1), (1, 1)], [a, b] => some (.Quads a b)
      | [(3, 1), (2, 1)], [a, b] => some (.FullHouse a b)
      | [(3, 1), (1, 2)], [a, b, c] => some (.Trips a b c)
      | [(2, 2), (1, 1)], [a, b, c] => some (.TwoPair a b c)
      | [(2, 1), (1, 3)], [a, b, c, d] => some (.OnePair a b c d)
      | [(1, 5)], [a, b, c, d, e] => some (.HighCard a b c d e)
      | _, _ => none

/-- Rust `Iterator::max` keeps the later element on ties. -/
def maxStep (acc x : SortedHandValue) : SortedHandValue :=
  if shvCmp x acc = .lt then acc else x

/-- `Iterator::max` over hand values (`none` on an empty list = `expect`). -/
def maxOfValues : List SortedHandValue → Option SortedHandValue
  | [] => none
  | x :: xs => some (xs.foldl maxStep x)

/-- Rank every subset through the Hand Ranker; `none` as soon as one subset
panics (irrelevant on valid input, where none does). -/
def rankAll : List (List Card) → Option (List SortedHandValue)
  | [] => some []
  | sub :: rest =>
    match handValue5 sub, rankAll rest with
    | some v, some vs => some (v :: vs)
    | _, _ => none

/-- `CardsCombined<7>::hand_value`: rank all C(7,5)=21 five-card subsets and
take the maximum.  (`array_combinations` yields the same 21 subsets as
`List.sublistsLen 5`, only in a different order; since ties carry equal
`HandValue`s, the maximum value is order-independent.)  The definition is
stated for an arbitrary card list; on a 6-card list it is likewise the best
5-card hand, the spec's notion of the value of a hole combined with a turn
board. -/
def bestHandValue (cs : List Card) : Option SortedHandValue :=
  match rankAll (List.sublistsLen 5 cs) with
  | none => none
  | some vals => maxOfValues vals

/-- `Hole = CardsCombined<2>`, kept as the pair in construction order. -/
abbrev Hole := Card × Card

/-- The canonically `as_u8`-sorted copy of a hole (`CardsCombined::sorted`). -/
def holeSorted (h : Hole) : Card × Card :=
  if h.1.asU8 ≤ h.2.asU8 then (h.1, h.2) else (h.2, h.1)

/-- `impl PartialEq for CardsCombined<2>`: equality of the sorted copies. -/
def holeEqb (a b : Hole) : Bool := decide (holeSorted a = holeSorted b)

/-- `Hole::is_pocket`. -/
def holeIsPocket (h : Hole) (v : Value) : Bool :=
  decide (h.1.value = v) && decide (h.2.value = v)

/-- `CardsCombined::contains_value` for a hole. -/
def holeContainsValue (h : Hole) (v : Value) : Bool :=
  decide (h.1.value = v) || decide (h.2.value = v)

/-- `Hole::is_of_values([hi, lo])`. -/
def holeIsOfValues (h : Hole) (hi lo : Value) : Bool :=
  holeContainsValue h hi && holeContainsValue h lo

/-- `CardsCombined::contains_card` for a hole. -/
def holeContainsCard (h : Hole) (c : Card) : Bool :=
  decide (h.1 = c) || decide (h.2 = c)

/-- `Hole::is_suited`. -/
def holeIsSuited (h : Hole) : Bool := decide (h.1.suit = h.2.suit)

/-- `Hole::from_values_suited`. -/
def holeFromValuesSuited (hi lo : Value) (s : Suit) : Hole :=
  (⟨hi, s⟩, ⟨lo, s⟩)

/-- `enum StraightSolve`: ranks missing from a 5-wide straight window. -/
inductive StraightSolve : Type
  | None
  | One (v : Value)
  | Two (hi lo : Value)
  deriving DecidableEq, Repr

/-- `StraightSolve::last`. -/
def StraightSolve.last : StraightSolve → Option Value
  | .None => .none
  | .One v => some v
  | .Two _ lo => some lo

/-- `enum FindNuts`, the symbolic nuts descriptor. -/
inductive FindNuts : Type
  | PocketPair (v : Value)
  | OneValue (v : Value)
  | TwoValues (hi lo : Value)
  | PocketOrTwo (v : Value) (hi lo : Value)
  | OneHole (h : Hole)
  | TwoHoles (h1 h2 : Hole)
  | ThreeHoles (h1 h2 h3 : Hole)
  | CardPlusAny (c : Card)
  | CardPlusAnySuited (c : Card)
  | AnyTwo
  deriving DecidableEq, Repr

/-- `impl PartialEq<Hole> for FindNuts`: the O(1) membership test. -/
def acceptsHole : FindNuts → Hole → Bool
  | .PocketPair v, h => holeIsPocket h v
  | .OneValue v, h => holeContainsValue h v
  | .TwoValues hi lo, h => holeIsOfValues h hi lo
  | .PocketOrTwo v hi lo, h => holeIsPocket h v || holeIsOfValues h hi lo
  | .OneHole h0, h => holeEqb h0 h
  | .TwoHoles h1 h2, h => holeEqb h1 h || holeEqb h2 h
  | .ThreeHoles h1 h2 h3, h => holeEqb h1 h || holeEqb h2 h || holeEqb h3 h
  | .CardPlusAny c, h => holeContainsCard h c
  | .CardPlusAnySuited c, h => holeContainsCard h c && holeIsSuited h
  | .AnyTwo, _ => true

/-- `Board::paired`: some value repeats on the board. -/
def paired (cs : List Card) : Bool := !allUnique (cs.map Card.value)

/-- `Board::flush_cards`: the suit holding at least 3 board cards, with its
cards in board order.  (The Rust `HashMap` iteration order is immaterial: a
board of at most 5 cards can have at most one such suit.) -/
def flushCards (cs : List Card) : Option (Suit × List Card) :=
  [Suit.Spades, .Hearts, .Diamonds, .Clubs].findSome? (fun st =>
    let group := cs.filter (fun c => decide (c.suit = st))
    if 3 ≤ group.length then some (st, group) else none)

/-- Insertion into a sorted duplicate-free list (`BTreeSet<u8>::insert`). -/
def insertSortedSet (x : Nat) : List Nat → List Nat
  | [] => [x]
  | y :: ys =>
    if x < y then x :: y :: ys
    else if x = y then y :: ys
    else y :: insertSortedSet x ys

/-- The `BTreeSet` of straight ordinals of the cards, with 0 added when an
Ace (ordinal 13) is present, to support the wheel. -/
def straightValuesSet (cs : List Card) : List Nat :=
  let base := cs.foldl (fun acc c => insertSortedSet c.value.straightU8 acc) []
  if decide (13 ∈ base) then insertSortedSet 0 base else base

/-- `IndexSet::insert`: append if not already present (insertion order kept). -/
def insertSolve (solves : List StraightSolve) (s : StraightSolve) :
    List StraightSolve :=
  if decide (s ∈ solves) then solves else solves ++ [s]

/-- The descending list `(lo..=hi).rev()`. -/
def descRange (lo hi : Nat) : List Nat :=
  (List.range (hi + 1 - lo)).map (fun i => hi - i)

/-- The window loop of `Board::straight_scan`.  A window needing 0 missing
ranks returns immediately; needing 1 or 2 records a solve (returning when
`only_first`); more than 2 is skipped. -/
def scanLoop (remainSet : List Nat) (onlyFirst : Bool) :
    List Nat → List StraightSolve → Option (List StraightSolve)
  | [], solves => some solves
  | start :: rest, solves =>
    let solve := remainSet.filter (fun u => decide (start ≤ u) && decide (u < start + 5))
    if solve.length ≤ 2 then
      match solve with
      | [] => some (insertSolve solves .None)
      | [a] =>
        match fromU8Straight a with
        | .none => none
        | some v =>
          let solves := insertSolve solves (.One v)
          if onlyFirst then some solves else scanLoop remainSet onlyFirst rest solves
      | [a, b] =>
        match fromU8Straight b, fromU8Straight a with
        | some hi, some lo =>
          let solves := insertSolve solves (.Two hi lo)
          if onlyFirst then some solves else scanLoop remainSet onlyFirst rest solves
        | _, _ => none
      | _ => none
    else scanLoop remainSet onlyFirst rest solves

/-- `Board::straight_scan`.  Returns the highest rank not on the board (the
"nuts high card" rank) and the recorded window solves; `none` models the
`expect` panics on an empty card list.  (The Rust `u8` subtractions cannot
underflow on the call sites' inputs, which always hold at least three
distinct ranks; `Nat` subtraction is used.) -/
def straightScan (cs : List Card) (onlyFirst : Bool) :
    Option (Value × List StraightSolve) :=
  let values := straightValuesSet cs
  match values.head?, values.getLast? with
  | some v0, some vl =>
    let rangeStart := max v0 2 - 2
    let rangeEnd := min 13 (vl + 2) - 4
    let remainSet := (List.range 14).filter (fun u => decide (u ∉ values))
    match remainSet.getLast? with
    | .none => none
    | some rh =>
      match fromU8Straight rh with
      | .none => none
      | some remainHigh =>
        match scanLoop remainSet onlyFirst (descRange rangeStart rangeEnd) [] with
        | .none => none
        | some solves => some (remainHigh, solves)
  | _, _ => none

/-- `Iterator::max` over values with `unwrap_or(Value::Ace)` (later element
kept on ties, as `Iterator::max` does). -/
def maxValueOr (cs : List Card) : Value :=
  match cs.map Card.value with
  | [] => .Ace
  | v :: vs => vs.foldl (fun a b => if a.toNat ≤ b.toNat then b else a) v

/-- `Board::quads_full_house`: the paired-board decision table over the
multiplicity shape.  The `unreachable!()` arm (and the out-of-bounds
`sorted_values[i]` indexing it would entail) is `none`. -/
def quadsFullHouse (cards : List Card) : Option FindNuts :=
  match toCountPairs cards, toSortedValues cards with
  | [(3, 1)], v0 :: _ => some (.OneValue v0)
  | [(3, 1), (1, _)], v0 :: _ => some (.OneValue v0)
  | [(2, 1), (1, _)], pair :: singleHigh :: _ =>
    if singleHigh.toNat < pair.toNat then
      some (.PocketOrTwo pair pair singleHigh)
    else some (.PocketPair pair)
  | [(4, 1)], v0 :: _ =>
    if v0 = .Ace then some (.OneValue .King) else some (.OneValue .Ace)
  | [(2, 2)], high :: low :: _ => some (.PocketOrTwo high high low)
  | [(4, 1), (1, 1)], quad :: kicker :: _ =>
    if quad = .Ace then
      if kicker = .King then some .AnyTwo else some (.OneValue .King)
    else
      if kicker = .Ace then some .AnyTwo else some (.OneValue .Ace)
  | [(3, 1), (2, 1)], trip :: pair :: _ =>
    if trip.toNat < pair.toNat then
      some (.PocketOrTwo pair pair trip)
    else some (.OneValue trip)
  | [(2, 2), (1, 1)], pairHigh :: pairLow :: single :: _ =>
    if single.toNat < pairLow.toNat then
      some (.PocketOrTwo pairHigh pairHigh pairLow)
    else some (.PocketPair pairHigh)
  | _, _ => none

/-- `Board::find_nuts`, operating on the flattened board card list.
Note the Rust shadowing: inside the flush branch, `cards` is rebound to the
flush suit's cards, so the `board_paired` path there hands `quads_full_house`
the flush-suit cards. -/
def findNutsCards (cards : List Card) : Option FindNuts :=
  let boardPaired := paired cards
  match flushCards cards with
  | some (suit, fcards) =>
    let cardsLen := fcards.length
    match straightScan fcards false with
    | .none => none
    | some (nutsHighValue, sfSolves) =>
      let nutsHighCard : Card := ⟨nutsHighValue, suit⟩
      match sfSolves with
      | [] =>
        if boardPaired then quadsFullHouse fcards
        else if cardsLen = 3 then some (.CardPlusAnySuited nutsHighCard)
        else some (.CardPlusAny nutsHighCard)
      | .None :: _ => some .AnyTwo
      | .One v :: _ => some (.CardPlusAny ⟨v, suit⟩)
      | .Two hi0 lo0 :: rest =>
        let sf0Hole := holeFromValuesSuited hi0 lo0 suit
        match rest with
        | [] =>
          if boardPaired then some (.OneHole sf0Hole)
          else if hi0 = nutsHighValue then
            if cardsLen = 3 then some (.CardPlusAnySuited nutsHighCard)
            else some (.CardPlusAny nutsHighCard)
          else some (.ThreeHoles sf0Hole
            (nutsHighCard, ⟨hi0, suit⟩) (nutsHighCard, ⟨lo0, suit⟩))
        | .None :: _ => none
        | .One v :: _ => some (.CardPlusAny ⟨v, suit⟩)
        | .Two hi1 lo1 :: rest2 =>
          let sf1Hole := holeFromValuesSuited hi1 lo1 suit
          let ace : Card := ⟨.Ace, suit⟩
          if hi1 ≠ lo0 then
            if boardPaired ∨ hi0 ≠ nutsHighValue then some (.OneHole sf0Hole)
            else some (.ThreeHoles sf0Hole
              (nutsHighCard, ⟨hi1, suit⟩) (nutsHighCard, ⟨lo1, suit⟩))
          else if boardPaired then some (.TwoHoles sf0Hole sf1Hole)
          else if hi0 = nutsHighValue then
            some (.ThreeHoles sf0Hole sf1Hole (nutsHighCard, ⟨lo1, suit⟩))
          else
            match rest2 with
            | sf2 :: _ =>
              if sf2.last = some .Ace then
                some (.ThreeHoles sf0Hole sf1Hole (ace, ⟨hi1, suit⟩))
              else some (.TwoHoles sf0Hole sf1Hole)
            | [] =>
              if lo1 = .Ace then
                some (.ThreeHoles sf0Hole sf1Hole (ace, ⟨hi0, suit⟩))
              else some (.ThreeHoles sf0Hole sf1Hole (nutsHighCard, ⟨hi1, suit⟩))
  | .none =>
    if boardPaired then quadsFullHouse cards
    else
      match straightScan cards true with
      | .none => none
      | some (_, straight) =>
        match straight with
        | .None :: _ => some .AnyTwo
        | .One v :: _ => some (.OneValue v)
        | .Two hi lo :: _ => some (.TwoValues hi lo)
        | [] => some (.PocketPair (maxValueOr cards))

/-- `enum BoardCards`: the stage-tagged community board. -/
inductive BoardCards : Type
  | Preflop
  | Flop (c1 c2 c3 : Card)
  | Turn (c1 c2 c3 t : Card)
  | River (c1 c2 c3 t r : Card)
  deriving DecidableEq, Repr

/-- `Board::to_vec`. -/
def BoardCards.toVec : BoardCards → List Card
  | .Preflop => []
  | .Flop c1 c2 c3 => [c1, c2, c3]
  | .Turn c1 c2 c3 t => [c1, c2, c3, t]
  | .River c1 c2 c3 t r => [c1, c2, c3, t, r]

/-- A board is validly constructed when its cards are pairwise distinct
(what `Board::from_slice` / `turn` / `river` enforce; the stage shape is
already enforced by the constructor used). -/
def BoardCards.validb (b : BoardCards) : Bool := allUnique b.toVec

/-- `Board::find_nuts`. -/
def BoardCards.findNuts (b : BoardCards) : Option FindNuts :=
  findNutsCards b.toVec

/-- `Board::is_nuts`: membership of the hole in the computed descriptor
(`none` when `find_nuts` panics). -/
def BoardCards.isNuts (b : BoardCards) (h : Hole) : Option Bool :=
  (b.findNuts).map (fun d => acceptsHole d h)

/-- `CardsCombined::sorted`: the canonically sorted copy used by `PartialEq`. -/
def cardsSorted (cs : List Card) : List Card :=
  List.insertionSort (fun a b => a.asU8 ≤ b.asU8) cs

/-- `impl PartialEq for CardsCombined<N>`: equality of sorted copies. -/
def ccEqb (a b : List Card) : Bool := decide (cardsSorted a = cardsSorted b)

/-- The byte stream the *derived* `Hash` impl feeds to the hasher: the array
elements in stored order, each card contributing its value and suit
discriminants (no sorting happens here, unlike in `PartialEq`). -/
def hashFeed (cs : List Card) : List Nat :=
  cs.flatMap (fun c => [c.value.toNat, c.suit.toNat])

/-- Category index of a hand value: Royal Flush = 9 down to High Card = 0,
the fixed category order of the spec. -/
def catRank : SortedHandValue → Nat
  | .RoyalFlush => 9
  | .StraightFlush _ => 8
  | .Quads _ _ => 7
  | .FullHouse _ _ => 6
  | .Flush _ _ _ _ _ => 5
  | .Straight _ => 4
  | .Trips _ _ _ => 3
  | .TwoPair _ _ _ => 2
  | .OnePair _ _ _ _ => 1
  | .HighCard _ _ _ _ _ => 0

/-- Lexicographic comparison of `Nat` lists (shorter list compares `lt`
against a proper extension; never reached across our keys). -/
def natListCmp : List Nat → List Nat → Ordering
  | [], [] => .eq
  | [], _ :: _ => .lt
  | _ :: _, [] => .gt
  | a :: as_, b :: bs =>
    match compare a b with
    | .eq => natListCmp as_ bs
    | o => o

/-- Flattening of a hand value to its comparison key: category index followed
by the kicker payload ordinals.  `shvCmp` coincides with lexicographic
comparison of keys. -/
def shvKey : SortedHandValue → List Nat
  | .RoyalFlush => [9]
  | .StraightFlush v => [8, v.toNat]
  | .Quads a b => [7, a.toNat, b.toNat]
  | .FullHouse a b => [6, a.toNat, b.toNat]
  | .Flush a b c d e => [5, a.toNat, b.toNat, c.toNat, d.toNat, e.toNat]
  | .Straight v => [4, v.toNat]
  | .Trips a b c => [3, a.toNat, b.toNat, c.toNat]
  | .TwoPair a b c => [2, a.toNat, b.toNat, c.toNat]
  | .OnePair a b c d => [1, a.toNat, b.toNat, c.toNat, d.toNat]
  | .HighCard a b c d e => [0, a.toNat, b.toNat, c.toNat, d.toNat, e.toNat]

/-! ## Theorems -/

/-! ### The total order on hand values -/

theorem natCompare_self (n : Nat) : compare n n = .eq := Nat.compare_eq_eq.mpr rfl

theorem natListCmp_singleton (x y : Nat) : natListCmp [x] [y] = compare x y := by
  cases hc : compare x y <;> simp [natListCmp, hc]

theorem natListCmp_cons_self (x : Nat) (xs ys : List Nat) :
    natListCmp (x :: xs) (x :: ys) = natListCmp xs ys := by
  simp [natListCmp, natCompare_self]

theorem valueCmp_key (a b : Value) :
    valueCmp a b = natListCmp [a.toNat] [b.toNat] := by
  simp [valueCmp, natListCmp_singleton]

theorem lex2_key (a1 a2 b1 b2 : Value) :
    lex2 a1 a2 b1 b2 = natListCmp [a1.toNat, a2.toNat] [b1.toNat, b2.toNat] := by
  rw [show natListCmp [a1.toNat, a2.toNat] [b1.toNat, b2.toNat]
      = match compare a1.toNat b1.toNat with
        | .eq => natListCmp [a2.toNat] [b2.toNat]
        | o => o from rfl]
  unfold lex2 valueCmp
  cases compare a1.toNat b1.toNat <;> simp [natListCmp_singleton]

theorem lex3_key (a1 a2 a3 b1 b2 b3 : Value) :
    lex3 a1 a2 a3 b1 b2 b3
      = natListCmp [a1.toNat, a2.toNat, a3.toNat] [b1.toNat, b2.toNat, b3.toNat] := by
  rw [show natListCmp [a1.toNat, a2.toNat, a3.toNat] [b1.toNat, b2.toNat, b3.toNat]
      = match compare a1.toNat b1.toNat with
        | .eq => natListCmp [a2.toNat, a3.toNat] [b2.toNat, b3.toNat]
        | o => o from rfl]
  unfold lex3 valueCmp
  cases compare a1.toNat b1.toNat <;> first | rfl | exact lex2_key a2 a3 b2 b3

theorem lex4_key (a1 a2 a3 a4 b1 b2 b3 b4 : Value) :
    lex4 a1 a2 a3 a4 b1 b2 b3 b4
      = natListCmp [a1.toNat, a2.toNat, a3.toNat, a4.toNat]
          [b1.toNat, b2.toNat, b3.toNat, b4.toNat] := by
  rw [show natListCmp [a1.toNat, a2.toNat, a3.toNat, a4.toNat]
        [b1.toNat, b2.toNat, b3.toNat, b4.toNat]
      = match compare a1.toNat b1.toNat with
        | .eq => natListCmp [a2.toNat, a3.toNat, a4.toNat] [b2.toNat, b3.toNat, b4.toNat]
        | o => o from rfl]
  unfold lex4 valueCmp
  cases compare a1.toNat b1.toNat <;> first | rfl | exact lex3_key a2 a3 a4 b2 b3 b4

theorem lex5_key (a1 a2 a3 a4 a5 b1 b2 b3 b4 b5 : Value) :
    lex5 a1 a2 a3 a4 a5 b1 b2 b3 b4 b5
      = natListCmp [a1.toNat, a2.toNat, a3.toNat, a4.toNat, a5.toNat]
          [b1.toNat, b2.toNat, b3.toNat, b4.toNat, b5.toNat] := by
  rw [show natListCmp [a1.toNat, a2.toNat, a3.toNat, a4.toNat, a5.toNat]
        [b1.toNat, b2.toNat, b3.toNat, b4.toNat, b5.toNat]
      = match compare a1.toNat b1.toNat with
        | .eq => natListCmp [a2.toNat, a3.toNat, a4.toNat, a5.toNat]
            [b2.toNat, b3.toNat, b4.toNat, b5.toNat]
        | o => o from rfl]
  unfold lex5 valueCmp
  cases compare a1.toNat b1.toNat <;> first | rfl | exact lex4_key a2 a3 a4 a5 b2 b3 b4 b5

/-- `shvCmp` is lexicographic comparison of the flattened keys. -/
theorem shvCmp_eq_keyCmp (a b : SortedHandValue) :
    shvCmp a b = natListCmp (shvKey a) (shvKey b) := by
  cases a <;> cases b <;>
    simp only [shvKey] <;>
    first
      | rfl
      | (rw [natListCmp_cons_self]
         first
           | apply valueCmp_key
           | apply lex2_key
           | apply lex3_key
           | apply lex4_key
           | apply lex5_key)

theorem natListCmp_self : ∀ l : List Nat, natListCmp l l = .eq := by
  intro l
  induction l with
  | nil => rfl
  | cons x xs ih => simpa [natListCmp, natCompare_self] using ih

theorem natListCmp_gt_iff : ∀ a b : List Nat,
    natListCmp a b = .gt ↔ natListCmp b a = .lt := by
  intro a
  induction a with
  | nil => intro b; cases b <;> simp [natListCmp]
  | cons x xs ih =>
    intro b
    cases b with
    | nil => simp [natListCmp]
    | cons y ys =>
      rcases Nat.lt_trichotomy x y with hlt | heq | hgt
      · have h1 : compare x y = .lt := Nat.compare_eq_lt.mpr hlt
        have h2 : compare y x = .gt := Nat.compare_eq_gt.mpr hlt
        simp [natListCmp, h1, h2]
      · subst heq
        simp [natListCmp, natCompare_self, ih]
      · have h1 : compare x y = .gt := Nat.compare_eq_gt.mpr hgt
        have h2 : compare y x = .lt := Nat.compare_eq_lt.mpr hgt
        simp [natListCmp, h1, h2]

theorem natListCmp_le_trans : ∀ a b c : List Nat,
    natListCmp a b ≠ .gt → natListCmp b c ≠ .gt → natListCmp a c ≠ .gt := by
  intro a
  induction a with
  | nil => intro b c _ _; cases c <;> simp [natListCmp]
  | cons x xs ih =>
    intro b c h1 h2
    cases b with
    | nil => simp [natListCmp] at h1
    | cons y ys =>
      cases c with
      | nil => simp [natListCmp] at h2
      | cons z zs =>
        rcases Nat.lt_trichotomy x y with hxy | hxy | hxy
        case inr.inr =>
          rw [show natListCmp (x :: xs) (y :: ys)
              = match compare x y with
                | .eq => natListCmp xs ys
                | o => o from rfl, Nat.compare_eq_gt.mpr hxy] at h1
          exact absurd rfl h1
        all_goals
          rcases Nat.lt_trichotomy y z with hyz | hyz | hyz
        case inr.inr | inl.inr.inr =>
          rw [show natListCmp (y :: ys) (z :: zs)
              = match compare y z with
                | .eq => natListCmp ys zs
                | o => o from rfl, Nat.compare_eq_gt.mpr hyz] at h2
          exact absurd rfl h2
        · -- x < y, y < z
          have : x < z := Nat.lt_trans hxy hyz
          simp [natListCmp, Nat.compare_eq_lt.mpr this]
        · -- x < y, y = z
          subst hyz
          simp [natListCmp, Nat.compare_eq_lt.mpr hxy]
        · -- x = y, y < z
          subst hxy
          simp [natListCmp, Nat.compare_eq_lt.mpr hyz]
        · -- x = y, y = z
          subst hxy; subst hyz
          rw [show natListCmp (x :: xs) (x :: ys) = natListCmp xs ys from
              natListCmp_cons_self x xs ys] at h1
          rw [natListCmp_cons_self] at h2 ⊢
          exact ih ys zs h1 h2

/-- "not worse than" order on hand values induced by `shvCmp`. -/
theorem shvCmp_le_trans (a b c : SortedHandValue)
    (h1 : shvCmp a b ≠ .gt) (h2 : shvCmp b c ≠ .gt) : shvCmp a c ≠ .gt := by
  rw [shvCmp_eq_keyCmp] at h1 h2 ⊢
  exact natListCmp_le_trans _ _ _ h1 h2

theorem shvCmp_self (a : SortedHandValue) : shvCmp a a = .eq := by
  rw [shvCmp_eq_keyCmp]; exact natListCmp_self _

theorem shvCmp_not_lt_of_not_gt (a b : SortedHandValue)
    (h : shvCmp a b ≠ .lt) : shvCmp b a ≠ .gt := by
  rw [shvCmp_eq_keyCmp] at h ⊢
  intro hgt
  exact h ((natListCmp_gt_iff _ _).mp hgt)

/-! ### Exhaustiveness of the multiplicity shapes -/

theorem countOf_cons (c : Card) (cs : List Card) (v : Value) :
    countOf (c :: cs) v = countOf cs v + (if c.value = v then 1 else 0) := by
  by_cases h : c.value = v <;> simp [countOf, List.filter_cons, h]

theorem sum_map_add {α : Type} (l : List α) (f g : α → Nat) :
    (l.map (fun x => f x + g x)).sum = (l.map f).sum + (l.map g).sum := by
  induction l with
  | nil => rfl
  | cons x xs ih => simp [ih]; omega

theorem sum_indicator (w : Value) :
    (allValuesDesc.map (fun v => if w = v then 1 else 0)).sum = 1 := by
  cases w <;> decide

/-- Every card contributes to exactly one value's count. -/
theorem sum_countOf (cs : List Card) :
    (allValuesDesc.map (countOf cs)).sum = cs.length := by
  induction cs with
  | nil => decide
  | cons c cs ih =>
    have hfn : countOf (c :: cs)
        = fun v => countOf cs v + (if c.value = v then 1 else 0) :=
      funext (countOf_cons c cs)
    rw [hfn, sum_map_add, ih, sum_indicator]
    simp

/-- At most four distinct cards can carry one value (four suits). -/
theorem countOf_le_four (cs : List Card) (h : cs.Nodup) (v : Value) :
    countOf cs v ≤ 4 := by
  unfold countOf
  have hnd : (cs.filter (fun c => decide (c.value = v))).Nodup := h.filter _
  have hmap : ((cs.filter (fun c => decide (c.value = v))).map Card.suit).Nodup := by
    refine List.Nodup.map_on ?_ hnd
    intro x hx y hy hxy
    have hxv : x.value = v := by simpa using (List.mem_filter.mp hx).2
    have hyv : y.value = v := by simpa using (List.mem_filter.mp hy).2
    calc x = ⟨x.value, x.suit⟩ := rfl
    _ = ⟨y.value, y.suit⟩ := by rw [hxv, hyv, hxy]
    _ = y := rfl
  have hle := hmap.length_le_card
  have hcard : Fintype.card Suit = 4 := rfl
  rw [List.length_map, hcard] at hle
  exact hle

theorem countOf_le_length (cs : List Card) (v : Value) :
    countOf cs v ≤ cs.length :=
  List.length_filter_le _ _

/-- Weighted count of the multiplicity classes over any value list. -/
theorem sum_mul_filterCount (cs : List Card) (hb : ∀ v, countOf cs v ≤ 5) :
    ∀ L : List Value,
    ([1, 2, 3, 4, 5].map
      (fun c => c * (L.filter (fun v => decide (countOf cs v = c))).length)).sum
      = (L.map (countOf cs)).sum := by
  intro L
  induction L with
  | nil => rfl
  | cons v L ih =>
    have hn : countOf cs v ≤ 5 := hb v
    have hsplit : ∀ c : Nat,
        ((v :: L).filter (fun w => decide (countOf cs w = c))).length
          = (L.filter (fun w => decide (countOf cs w = c))).length
            + (if countOf cs v = c then 1 else 0) := by
      intro c
      by_cases h : countOf cs v = c <;> simp [List.filter_cons, h]
    simp only [List.map_cons, List.sum_cons, hsplit, List.map_nil, List.sum_nil]
    simp only [List.map_cons, List.sum_cons, List.map_nil, List.sum_nil] at ih
    revert ih
    generalize countOf cs v = n at hn ⊢
    intro ih
    interval_cases n <;> simp <;> omega

/-- `l.length = 5` destructor. -/
theorem length_eq_five {α : Type} {l : List α} (h : l.length = 5) :
    ∃ a b c d e, l = [a, b, c, d, e] := by
  rcases l with _ | ⟨a, l⟩
  · simp only [List.length_nil] at h; omega
  rcases l with _ | ⟨b, l⟩
  · simp only [List.length_cons, List.length_nil] at h; omega
  rcases l with _ | ⟨c, l⟩
  · simp only [List.length_cons, List.length_nil] at h; omega
  rcases l with _ | ⟨d, l⟩
  · simp only [List.length_cons, List.length_nil] at h; omega
  rcases l with _ | ⟨e, l⟩
  · simp only [List.length_cons, List.length_nil] at h; omega
  rcases l with _ | ⟨f, l⟩
  · exact ⟨a, b, c, d, e, rfl⟩
  · simp only [List.length_cons] at h; omega

/-- `l.length = 4` destructor. -/
theorem length_eq_four {α : Type} {l : List α} (h : l.length = 4) :
    ∃ a b c d, l = [a, b, c, d] := by
  rcases l with _ | ⟨a, l⟩
  · simp only [List.length_nil] at h; omega
  rcases l with _ | ⟨b, l⟩
  · simp only [List.length_cons, List.length_nil] at h; omega
  rcases l with _ | ⟨c, l⟩
  · simp only [List.length_cons, List.length_nil] at h; omega
  rcases l with _ | ⟨d, l⟩
  · simp only [List.length_cons, List.length_nil] at h; omega
  rcases l with _ | ⟨e, l⟩
  · exact ⟨a, b, c, d, rfl⟩
  · simp only [List.length_cons] at h; omega

/-- The only solutions of `4k4 + 3k3 + 2k2 + k1 = 5`. -/
theorem shape_table (k4 k3 k2 k1 : Nat) (h4 : k4 < 2) (h3 : k3 < 2)
    (h2 : k2 < 3) (h1 : k1 < 6) (heq : 4 * k4 + 3 * k3 + 2 * k2 + k1 = 5) :
    (k4, k3, k2, k1) = (1, 0, 0, 1) ∨ (k4, k3, k2, k1) = (0, 1, 1, 0)
      ∨ (k4, k3, k2, k1) = (0, 1, 0, 2) ∨ (k4, k3, k2, k1) = (0, 0, 2, 1)
      ∨ (k4, k3, k2, k1) = (0, 0, 1, 3) ∨ (k4, k3, k2, k1) = (0, 0, 0, 5) := by
  interval_cases k4 <;> interval_cases k3 <;> interval_cases k2 <;>
    interval_cases k1 <;> simp_all

/-- For a 5-card list the count-pair list is the concrete filtered table. -/
theorem toCountPairs_five (cs : List Card) (h5 : cs.length = 5) :
    toCountPairs cs
      = [(5, kCount cs 5), (4, kCount cs 4), (3, kCount cs 3),
         (2, kCount cs 2), (1, kCount cs 1)].filter (fun p => decide (p.2 ≠ 0)) := by
  unfold toCountPairs
  rw [h5]
  rw [show (List.range (5 + 1)).reverse = [5, 4, 3, 2, 1, 0] from rfl]
  simp [List.filter_cons]

/-- For a 5-card list the sorted-values list is the concatenation of the
per-multiplicity groups, multiplicity descending. -/
theorem toSortedValues_five (cs : List Card) (h5 : cs.length = 5) :
    toSortedValues cs
      = valuesWithCount cs 5 ++ valuesWithCount cs 4 ++ valuesWithCount cs 3
          ++ valuesWithCount cs 2 ++ valuesWithCount cs 1 := by
  unfold toSortedValues
  rw [h5]
  rw [show ((List.range (5 + 1)).reverse.filter (fun c => decide (c ≠ 0)))
      = [5, 4, 3, 2, 1] from rfl]
  simp [List.flatMap]

/-- Exhaustiveness of the six multiplicity shapes: on any 5-card
duplicate-free list that reaches the rank-multiplicity branch, the shape
match of the Hand Ranker succeeds. -/
theorem handValue5_total (cs : List Card) (h5 : cs.length = 5) (hnd : cs.Nodup) :
    ∃ v, handValue5 cs = some v := by
  unfold handValue5
  rcases hst : isStraight cs with _ | lv
  case some =>
    by_cases hf : isFlushB cs
    · simp only [hf, if_true]
      by_cases ha : lv = .Ace <;> simp [ha]
    · simp only [hf, if_false]
      exact ⟨_, rfl⟩
  case none =>
  by_cases hf : isFlushB cs
  · simp only [hf, if_true]
    have hlen : (sortedValuesDesc cs).length = 5 := by
      simp [sortedValuesDesc, List.length_insertionSort, h5]
    obtain ⟨a, b, c, d, e, hl⟩ := length_eq_five hlen
    rw [hl]
    exact ⟨_, rfl⟩
  · simp only [hf, if_false]
    -- the multiplicity analysis
    have hb5 : ∀ v, countOf cs v ≤ 5 := fun v => h5 ▸ countOf_le_length cs v
    have hk5 : kCount cs 5 = 0 := by
      have : valuesWithCount cs 5 = [] := by
        unfold valuesWithCount
        rw [List.filter_eq_nil_iff]
        intro v _
        have := countOf_le_four cs hnd v
        simp only [decide_eq_true_eq]
        omega
      simp [kCount, this]
    have hsum := sum_mul_filterCount cs hb5 allValuesDesc
    rw [sum_countOf, h5] at hsum
    simp only [List.map_cons, List.sum_cons, List.map_nil, List.sum_nil] at hsum
    have hk1 : (allValuesDesc.filter (fun v => decide (countOf cs v = 1))).length
        = kCount cs 1 := rfl
    have hk2 : (allValuesDesc.filter (fun v => decide (countOf cs v = 2))).length
        = kCount cs 2 := rfl
    have hk3 : (allValuesDesc.filter (fun v => decide (countOf cs v = 3))).length
        = kCount cs 3 := rfl
    have hk4 : (allValuesDesc.filter (fun v => decide (countOf cs v = 4))).length
        = kCount cs 4 := rfl
    have hk5' : (allValuesDesc.filter (fun v => decide (countOf cs v = 5))).length
        = kCount cs 5 := rfl
    rw [hk1, hk2, hk3, hk4, hk5', hk5] at hsum
    have heq : 4 * kCount cs 4 + 3 * kCount cs 3 + 2 * kCount cs 2 + kCount cs 1 = 5 := by
      omega
    have hbounds : kCount cs 4 < 2 ∧ kCount cs 3 < 2 ∧ kCount cs 2 < 3 ∧ kCount cs 1 < 6 := by
      omega
    have hshape := shape_table (kCount cs 4) (kCount cs 3) (kCount cs 2)
      (kCount cs 1) hbounds.1 hbounds.2.1 hbounds.2.2.1 hbounds.2.2.2 heq
    have hlen1 : (valuesWithCount cs 1).length = kCount cs 1 := rfl
    have hlen2 : (valuesWithCount cs 2).length = kCount cs 2 := rfl
    have hlen3 : (valuesWithCount cs 3).length = kCount cs 3 := rfl
    have hlen4 : (valuesWithCount cs 4).length = kCount cs 4 := rfl
    have hF5 : valuesWithCount cs 5 = [] :=
      List.length_eq_zero.mp (hk5 ▸ rfl)
    rw [toCountPairs_five cs h5, toSortedValues_five cs h5, hF5]
    rcases hshape with h | h | h | h | h | h <;>
      (simp only [Prod.mk.injEq] at h) <;>
      obtain ⟨e4, e3, e2, e1⟩ := h
    · -- Quads: (1,0,0,1)
      obtain ⟨a, ha⟩ := List.length_eq_one.mp (hlen4.trans e4)
      have h3 : valuesWithCount cs 3 = [] := List.length_eq_zero.mp (hlen3.trans e3)
      have h2 : valuesWithCount cs 2 = [] := List.length_eq_zero.mp (hlen2.trans e2)
      obtain ⟨b, hb⟩ := List.length_eq_one.mp (hlen1.trans e1)
      rw [ha, h3, h2, hb, hk5, e4, e3, e2, e1]
      exact ⟨_, rfl⟩
    · -- FullHouse: (0,1,1,0)
      have h4 : valuesWithCount cs 4 = [] := List.length_eq_zero.mp (hlen4.trans e4)
      obtain ⟨a, ha⟩ := List.length_eq_one.mp (hlen3.trans e3)
      obtain ⟨b, hb⟩ := List.length_eq_one.mp (hlen2.trans e2)
      have h1 : valuesWithCount cs 1 = [] := List.length_eq_zero.mp (hlen1.trans e1)
      rw [h4, ha, hb, h1, hk5, e4, e3, e2, e1]
      exact ⟨_, rfl⟩
    · -- Trips: (0,1,0,2)
      have h4 : valuesWithCount cs 4 = [] := List.length_eq_zero.mp (hlen4.trans e4)
      obtain ⟨a, ha⟩ := List.length_eq_one.mp (hlen3.trans e3)
      have h2 : valuesWithCount cs 2 = [] := List.length_eq_zero.mp (hlen2.trans e2)
      obtain ⟨b, c, hbc⟩ := List.length_eq_two.mp (hlen1.trans e1)
      rw [h4, ha, h2, hbc, hk5, e4, e3, e2, e1]
      exact ⟨_, rfl⟩
    · -- TwoPair: (0,0,2,1)
      have h4 : valuesWithCount cs 4 = [] := List.length_eq_zero.mp (hlen4.trans e4)
      have h3 : valuesWithCount cs 3 = [] := List.length_eq_zero.mp (hlen3.trans e3)
      obtain ⟨a, b, hab⟩ := List.length_eq_two.mp (hlen2.trans e2)
      obtain ⟨c, hc⟩ := List.length_eq_one.mp (hlen1.trans e1)
      rw [h4, h3, hab, hc, hk5, e4, e3, e2, e1]
      exact ⟨_, rfl⟩
    · -- OnePair: (0,0,1,3)
      have h4 : valuesWithCount cs 4 = [] := List.length_eq_zero.mp (hlen4.trans e4)
      have h3 : valuesWithCount cs 3 = [] := List.length_eq_zero.mp (hlen3.trans e3)
      obtain ⟨a, ha⟩ := List.length_eq_one.mp (hlen2.trans e2)
      obtain ⟨b, c, d, hbcd⟩ := List.length_eq_three.mp (hlen1.trans e1)
      rw [h4, h3, ha, hbcd, hk5, e4, e3, e2, e1]
      exact ⟨_, rfl⟩
    · -- HighCard: (0,0,0,5)
      have h4 : valuesWithCount cs 4 = [] := List.length_eq_zero.mp (hlen4.trans e4)
      have h3 : valuesWithCount cs 3 = [] := List.length_eq_zero.mp (hlen3.trans e3)
      have h2 : valuesWithCount cs 2 = [] := List.length_eq_zero.mp (hlen2.trans e2)
      obtain ⟨a, b, c, d, e, habcde⟩ := length_eq_five (hlen1.trans e1)
      rw [h4, h3, h2, habcde, hk5, e4, e3, e2, e1]
      exact ⟨_, rfl⟩

/-- C2: on every 5-card duplicate-free hand the ranker yields exactly one
category (the shape match never falls through), following the stated cascade
(straight+flush gives Royal iff the top is an Ace, else Straight Flush;
flush alone carries the 5 sorted values; straight alone the top value), and
the order ranks the ten categories in the fixed order
Royal Flush > Straight Flush > Quads > Full House > Flush > Straight >
Trips > Two Pair > One Pair > High Card. -/
theorem c2_ranker_categories_and_order :
    (∀ cs : List Card, cs.length = 5 → cs.Nodup → ∃ v, handValue5 cs = some v) ∧
    (∀ cs : List Card, ∀ lv : Value, isStraight cs = some lv → isFlushB cs = true →
      handValue5 cs
        = some (if lv = .Ace then .RoyalFlush else .StraightFlush lv)) ∧
    (∀ cs : List Card, ∀ lv : Value, isStraight cs = some lv → isFlushB cs = false →
      handValue5 cs = some (.Straight lv)) ∧
    (∀ cs : List Card, ∀ a b c d e : Value, isStraight cs = none →
      isFlushB cs = true → sortedValuesDesc cs = [a, b, c, d, e] →
      handValue5 cs = some (.Flush a b c d e)) ∧
    (∀ a b : SortedHandValue, catRank b < catRank a → shvCmp a b = .gt) := by
  refine ⟨handValue5_total, ?_, ?_, ?_, ?_⟩
  · intro cs lv hst hf
    unfold handValue5
    rw [hst, hf]
    by_cases ha : lv = .Ace <;> simp [ha]
  · intro cs lv hst hf
    unfold handValue5
    rw [hst, hf]
    simp
  · intro cs a b c d e hst hf hsv
    unfold handValue5
    rw [hst, hf, hsv]
    rfl
  · intro a b h
    cases a <;> cases b <;> first | rfl | simp [catRank] at h

/-- C2 witness: a royal flush is ranked `RoyalFlush`, and `RoyalFlush`
outranks a lower category at a concrete pair. -/
theorem c2_witness :
    (handValue5 [⟨.Ace, .Spades⟩, ⟨.King, .Spades⟩, ⟨.Queen, .Spades⟩,
      ⟨.Jack, .Spades⟩, ⟨.Ten, .Spades⟩]).isSome = true ∧
    shvCmp .RoyalFlush (.Straight .Ace) = .gt := by
  constructor
  · obtain ⟨v, hv⟩ := c2_ranker_categories_and_order.1
      [⟨.Ace, .Spades⟩, ⟨.King, .Spades⟩, ⟨.Queen, .Spades⟩,
       ⟨.Jack, .Spades⟩, ⟨.Ten, .Spades⟩] (by decide) (by decide)
    rw [hv]; rfl
  · exact c2_ranker_categories_and_order.2.2.2.2 .RoyalFlush (.Straight .Ace)
      (by decide)

/-! ### The seven-card evaluator -/

theorem rankAll_some (l : List (List Card))
    (h : ∀ sub ∈ l, ∃ v, handValue5 sub = some v) :
    ∃ vs, rankAll l = some vs ∧ vs.length = l.length ∧
      (∀ v ∈ vs, ∃ sub ∈ l, handValue5 sub = some v) ∧
      (∀ sub ∈ l, ∃ v ∈ vs, handValue5 sub = some v) := by
  induction l with
  | nil => exact ⟨[], rfl, rfl, by simp, by simp⟩
  | cons x xs ih =>
    obtain ⟨v, hv⟩ := h x (by simp)
    obtain ⟨vs, hvs, hlen, hmem, hcov⟩ := ih (fun sub hsub => h sub (by simp [hsub]))
    refine ⟨v :: vs, ?_, ?_, ?_, ?_⟩
    · unfold rankAll
      rw [hv, hvs]
    · simp [hlen]
    · intro w hw
      rcases List.mem_cons.mp hw with hw | hw
      · exact ⟨x, by simp, hw ▸ hv⟩
      · obtain ⟨sub, hs1, hs2⟩ := hmem w hw
        exact ⟨sub, by simp [hs1], hs2⟩
    · intro sub hsub
      rcases List.mem_cons.mp hsub with hs | hs
      · exact ⟨v, by simp, hs ▸ hv⟩
      · obtain ⟨w, hw1, hw2⟩ := hcov sub hs
        exact ⟨w, by simp [hw1], hw2⟩

/-- The running fold of `Iterator::max` returns an element that every list
element (and the initial accumulator) compares not-greater against. -/
theorem foldl_maxStep_spec : ∀ (xs : List SortedHandValue) (x : SortedHandValue),
    (xs.foldl maxStep x = x ∨ xs.foldl maxStep x ∈ xs) ∧
    shvCmp x (xs.foldl maxStep x) ≠ .gt ∧
    ∀ y ∈ xs, shvCmp y (xs.foldl maxStep x) ≠ .gt := by
  intro xs
  induction xs with
  | nil =>
    intro x
    refine ⟨Or.inl rfl, ?_, by simp⟩
    simp only [List.foldl_nil]
    rw [shvCmp_self]
    simp
  | cons z zs ih =>
    intro x
    obtain ⟨hmem, hacc, hall⟩ := ih (maxStep x z)
    have hfold : (z :: zs).foldl maxStep x = zs.foldl maxStep (maxStep x z) := rfl
    set F := zs.foldl maxStep (maxStep x z) with hF
    have hzF : shvCmp z F ≠ .gt := by
      by_cases hc : shvCmp z x = .lt
      · have hm : maxStep x z = x := by simp [maxStep, hc]
        rw [hm] at hacc
        have hzx : shvCmp z x ≠ .gt := by rw [hc]; simp
        exact shvCmp_le_trans z x F hzx hacc
      · have hm : maxStep x z = z := by simp [maxStep, hc]
        rw [hm] at hacc
        exact hacc
    have hxF : shvCmp x F ≠ .gt := by
      by_cases hc : shvCmp z x = .lt
      · have hm : maxStep x z = x := by simp [maxStep, hc]
        rw [hm] at hacc
        exact hacc
      · have hm : maxStep x z = z := by simp [maxStep, hc]
        rw [hm] at hacc
        exact shvCmp_le_trans x z F (shvCmp_not_lt_of_not_gt z x hc) hacc
    refine ⟨?_, by rw [hfold]; exact hxF, ?_⟩
    · rw [hfold]
      rcases hmem with hm | hm
      · by_cases hc : shvCmp z x = .lt
        · left
          rw [hm]
          simp [maxStep, hc]
        · right
          rw [hm]
          simp [maxStep, hc]
      · right
        exact List.mem_cons_of_mem z hm
    · intro y hy
      rw [hfold]
      rcases List.mem_cons.mp hy with hy | hy
      · exact hy ▸ hzF
      · exact hall y hy

theorem maxOfValues_spec (l : List SortedHandValue) (m : SortedHandValue)
    (h : maxOfValues l = some m) :
    m ∈ l ∧ ∀ y ∈ l, shvCmp y m ≠ .gt := by
  rcases l with _ | ⟨x, xs⟩
  · exact absurd h (by simp [maxOfValues])
  · have hm : m = xs.foldl maxStep x := by
      have : some (xs.foldl maxStep x) = some m := h
      exact (Option.some.injEq _ _ ▸ this).symm
    obtain ⟨hmem, hacc, hall⟩ := foldl_maxStep_spec xs x
    subst hm
    constructor
    · rcases hmem with hm | hm
      · rw [hm]; exact List.mem_cons_self x xs
      · exact List.mem_cons_of_mem x hm
    · intro y hy
      rcases List.mem_cons.mp hy with hy | hy
      · exact hy ▸ hacc
      · exact hall y hy

/-- C3: on every 7-card duplicate-free set, `hand_value` returns the maximum
Hand-Ranker value over the C(7,5) = 21 five-card subsets: it is the value of
at least one subset and no subset ranks strictly greater. -/
theorem c3_seven_card_max (cs : List Card) (h7 : cs.length = 7)
    (hnd : cs.Nodup) :
    ∃ v, bestHandValue cs = some v ∧
      (∃ sub ∈ List.sublistsLen 5 cs, handValue5 sub = some v) ∧
      (∀ sub ∈ List.sublistsLen 5 cs,
        ∃ w, handValue5 sub = some w ∧ shvCmp w v ≠ .gt) ∧
      (List.sublistsLen 5 cs).length = 21 := by
  have hsubs : ∀ sub ∈ List.sublistsLen 5 cs, ∃ w, handValue5 sub = some w := by
    intro sub hsub
    obtain ⟨hsl, hlen⟩ := List.mem_sublistsLen.mp hsub
    exact handValue5_total sub hlen (hsl.nodup hnd)
  obtain ⟨vs, hvs, hlen, hmem, hcov⟩ := rankAll_some _ hsubs
  have hlen21 : (List.sublistsLen 5 cs).length = 21 := by
    rw [List.length_sublistsLen, h7]
    decide
  have hne : vs ≠ [] := by
    intro hnil
    rw [hnil] at hlen
    rw [hlen21] at hlen
    exact absurd hlen.symm (by simp)
  obtain ⟨m, hm⟩ : ∃ m, maxOfValues vs = some m := by
    rcases vs with _ | ⟨x, xs⟩
    · exact absurd rfl hne
    · exact ⟨xs.foldl maxStep x, rfl⟩
  obtain ⟨hmmem, hmax⟩ := maxOfValues_spec vs m hm
  refine ⟨m, ?_, hmem m hmmem, ?_, hlen21⟩
  · unfold bestHandValue
    rw [hvs]
    exact hm
  · intro sub hsub
    obtain ⟨w, hw1, hw2⟩ := hcov sub hsub
    exact ⟨w, hw2, hmax w hw1⟩

/-- C3 witness: the evaluator succeeds on a concrete 7-card set. -/
theorem c3_witness :
    (bestHandValue [⟨.Ace, .Spades⟩, ⟨.King, .Spades⟩, ⟨.Queen, .Spades⟩,
      ⟨.Jack, .Spades⟩, ⟨.Ten, .Spades⟩, ⟨.Deuce, .Hearts⟩,
      ⟨.Trey, .Diamonds⟩]).isSome = true := by
  obtain ⟨v, hv, _, _, _⟩ := c3_seven_card_max
    [⟨.Ace, .Spades⟩, ⟨.King, .Spades⟩, ⟨.Queen, .Spades⟩, ⟨.Jack, .Spades⟩,
     ⟨.Ten, .Spades⟩, ⟨.Deuce, .Hearts⟩, ⟨.Trey, .Diamonds⟩]
    (by decide) (by decide)
  rw [hv]
  rfl

/-! ### Wheel handling -/

theorem replaceFirst_perm (a b : Nat) : ∀ l : List Nat, a ∈ l →
    List.Perm (replaceFirst l a b) (b :: l.erase a) := by
  intro l
  induction l with
  | nil => intro h; simp at h
  | cons x xs ih =>
    intro h
    by_cases hx : x = a
    · subst hx
      rw [show replaceFirst (x :: xs) x b = b :: xs from by simp [replaceFirst]]
      rw [List.erase_cons_head]
    · rw [show replaceFirst (x :: xs) a b = x :: replaceFirst xs a b from by
        simp [replaceFirst, hx]]
      rw [List.erase_cons_tail (by simpa using hx)]
      have hmem : a ∈ xs := by
        rcases List.mem_cons.mp h with h1 | h1
        · exact absurd h1.symm hx
        · exact h1
      exact ((ih hmem).cons x).trans (List.Perm.swap b x _)

theorem sortNat_of_perm (l tgt : List Nat) (hp : List.Perm l tgt)
    (hs : List.Sorted (· ≤ ·) tgt) :
    List.insertionSort (· ≤ ·) l = tgt :=
  List.eq_of_perm_of_sorted ((List.perm_insertionSort _ l).trans hp)
    (List.sorted_insertionSort _ l) hs

/-- C4: a 5-card hand whose values are exactly {A,2,3,4,5} (any order, any
suits, not all one suit) ranks as a Straight topped by Five (the wheel), and
one whose values are exactly {T,J,Q,K,A} (not all one suit) as a Straight
topped by Ace. -/
theorem c4_wheel_classification :
    (∀ cs : List Card,
      List.Perm (cs.map Card.value) [.Ace, .Deuce, .Trey, .Four, .Five] →
      isFlushB cs = false → handValue5 cs = some (.Straight .Five)) ∧
    (∀ cs : List Card,
      List.Perm (cs.map Card.value) [.Ten, .Jack, .Queen, .King, .Ace] →
      isFlushB cs = false → handValue5 cs = some (.Straight .Ace)) := by
  constructor
  · intro cs hperm hflush
    have hu8 : List.Perm (cs.map (fun c => c.value.straightU8)) [13, 1, 2, 3, 4] := by
      have h2 := hperm.map Value.straightU8
      rw [List.map_map] at h2
      exact h2.trans (by decide)
    have hsort1 : List.insertionSort (· ≤ ·) (cs.map (fun c => c.value.straightU8))
        = [1, 2, 3, 4, 13] :=
      sortNat_of_perm _ _ (hu8.trans (by decide)) (by decide)
    have hcheck1 : checkStraight (cs.map (fun c => c.value.straightU8)) = none := by
      unfold checkStraight
      rw [hsort1]
      decide
    have hmem : (13 : Nat) ∈ cs.map (fun c => c.value.straightU8) :=
      hu8.mem_iff.mpr (by decide)
    have hrepl2 : List.Perm (replaceFirst (cs.map (fun c => c.value.straightU8)) 13 0)
        [0, 1, 2, 3, 4] := by
      refine (replaceFirst_perm 13 0 _ hmem).trans ?_
      have herase : List.Perm ((cs.map (fun c => c.value.straightU8)).erase 13)
          [1, 2, 3, 4] := (hu8.erase 13).trans (by decide)
      exact herase.cons 0
    have hsort2 : List.insertionSort (· ≤ ·)
        (replaceFirst (cs.map (fun c => c.value.straightU8)) 13 0) = [0, 1, 2, 3, 4] :=
      sortNat_of_perm _ _ hrepl2 (by decide)
    have hcheck2 : checkStraight (replaceFirst (cs.map (fun c => c.value.straightU8)) 13 0)
        = some .Five := by
      unfold checkStraight
      rw [hsort2]
      decide
    have hstr : isStraight cs = some .Five := by
      unfold isStraight
      rw [hcheck1, if_pos (decide_eq_true hmem), hcheck2]
    unfold handValue5
    rw [hstr, hflush]
    simp
  · intro cs hperm hflush
    have hu8 : List.Perm (cs.map (fun c => c.value.straightU8)) [9, 10, 11, 12, 13] := by
      have h2 := hperm.map Value.straightU8
      rw [List.map_map] at h2
      exact h2.trans (by decide)
    have hsort1 : List.insertionSort (· ≤ ·) (cs.map (fun c => c.value.straightU8))
        = [9, 10, 11, 12, 13] :=
      sortNat_of_perm _ _ hu8 (by decide)
    have hcheck1 : checkStraight (cs.map (fun c => c.value.straightU8)) = some .Ace := by
      unfold checkStraight
      rw [hsort1]
      decide
    have hstr : isStraight cs = some .Ace := by
      unfold isStraight
      rw [hcheck1]
    unfold handValue5
    rw [hstr, hflush]
    simp

/-- C4 witness: concrete wheel and Broadway hands. -/
theorem c4_witness :
    handValue5 [⟨.Ace, .Spades⟩, ⟨.Deuce, .Spades⟩, ⟨.Trey, .Spades⟩,
      ⟨.Four, .Spades⟩, ⟨.Five, .Hearts⟩] = some (.Straight .Five) ∧
    handValue5 [⟨.Ten, .Clubs⟩, ⟨.Jack, .Diamonds⟩, ⟨.Queen, .Hearts⟩,
      ⟨.King, .Spades⟩, ⟨.Ace, .Spades⟩] = some (.Straight .Ace) :=
  ⟨c4_wheel_classification.1 _ (by decide) (by decide),
   c4_wheel_classification.2 _ (by decide) (by decide)⟩

/-- C1: the nut-finder contract fails on the code.  First, on the valid
turn board Ah Kh 2h 2c `find_nuts` panics (the paired flush branch hands the
flush-suit cards to `quads_full_house`, whose shape match falls through), so
no descriptor satisfying the contract is returned at all.  Second, on the
board 2s 4s 5s 6s the returned descriptor `TwoHoles[{8s,7s},{7s,3s}]`
rejects the holding {3s, 8s} even though that holding makes a 6-high
straight flush — and, holding both gap cards 3s and 8s of every higher
spade window, it cannot be beaten (checked exhaustively over all disjoint
opposing holdings; the 8-high straight flush of the accepted {8s,7s} shows
the suit texture). -/
theorem c1_contract_fails :
    findNutsCards [⟨.Ace, .Hearts⟩, ⟨.King, .Hearts⟩, ⟨.Deuce, .Hearts⟩,
      ⟨.Deuce, .Clubs⟩] = none ∧
    findNutsCards [⟨.Deuce, .Spades⟩, ⟨.Four, .Spades⟩, ⟨.Five, .Spades⟩,
        ⟨.Six, .Spades⟩]
      = some (.TwoHoles (⟨.Eight, .Spades⟩, ⟨.Seven, .Spades⟩)
          (⟨.Seven, .Spades⟩, ⟨.Trey, .Spades⟩)) ∧
    acceptsHole (.TwoHoles (⟨.Eight, .Spades⟩, ⟨.Seven, .Spades⟩)
        (⟨.Seven, .Spades⟩, ⟨.Trey, .Spades⟩))
      (⟨.Trey, .Spades⟩, ⟨.Eight, .Spades⟩) = false ∧
    bestHandValue [⟨.Deuce, .Spades⟩, ⟨.Four, .Spades⟩, ⟨.Five, .Spades⟩,
        ⟨.Six, .Spades⟩, ⟨.Trey, .Spades⟩, ⟨.Eight, .Spades⟩]
      = some (.StraightFlush .Six) ∧
    bestHandValue [⟨.Deuce, .Spades⟩, ⟨.Four, .Spades⟩, ⟨.Five, .Spades⟩,
        ⟨.Six, .Spades⟩, ⟨.Eight, .Spades⟩, ⟨.Seven, .Spades⟩]
      = some (.StraightFlush .Eight) := by
  refine ⟨by decide, by decide, by decide, by decide, by decide⟩

/-- C5 counterexample.  The claim states that on the board As Ks Qs the
returned descriptor accepts exactly the single holding {Js, Ts}.  In fact
`find_nuts` returns `CardPlusAnySuited(Js)`, and that descriptor also accepts
the distinct holding {Js, 2s}, refuting the claim at this concrete board. -/
theorem c5_counterexample :
    findNutsCards [⟨.Ace, .Spades⟩, ⟨.King, .Spades⟩, ⟨.Queen, .Spades⟩]
      = some (.CardPlusAnySuited ⟨.Jack, .Spades⟩) ∧
    acceptsHole (.CardPlusAnySuited ⟨.Jack, .Spades⟩)
      (⟨.Jack, .Spades⟩, ⟨.Deuce, .Spades⟩) = true ∧
    holeEqb (⟨.Jack, .Spades⟩, ⟨.Deuce, .Spades⟩)
      (⟨.Jack, .Spades⟩, ⟨.Ten, .Spades⟩) = false := by
  refine ⟨by decide, by decide, by decide⟩

/-- C5 (amended): on the flop As Ks Qs, `find_nuts` returns
`CardPlusAnySuited(Js)`: the descriptor accepting exactly the holdings that
contain Js together with a second spade (the royal completion {Js, Ts} is
among them, but not the only one). -/
theorem c5_amended :
    findNutsCards [⟨.Ace, .Spades⟩, ⟨.King, .Spades⟩, ⟨.Queen, .Spades⟩]
      = some (.CardPlusAnySuited ⟨.Jack, .Spades⟩) ∧
    acceptsHole (.CardPlusAnySuited ⟨.Jack, .Spades⟩)
      (⟨.Jack, .Spades⟩, ⟨.Ten, .Spades⟩) = true := by
  refine ⟨by decide, by decide⟩

/-- C6 counterexample.  The claim states that on the board 2h 2d 2c the
returned descriptor accepts exactly the pocket-Ace holdings.  In fact
`find_nuts` returns `OneValue(Deuce)` (the case-quads card), which rejects
pocket Aces and accepts 2s with any kicker. -/
theorem c6_counterexample :
    findNutsCards [⟨.Deuce, .Hearts⟩, ⟨.Deuce, .Diamonds⟩, ⟨.Deuce, .Clubs⟩]
      = some (.OneValue .Deuce) ∧
    acceptsHole (.OneValue .Deuce) (⟨.Ace, .Hearts⟩, ⟨.Ace, .Diamonds⟩) = false ∧
    acceptsHole (.OneValue .Deuce) (⟨.Deuce, .Spades⟩, ⟨.Trey, .Hearts⟩) = true := by
  refine ⟨by decide, by decide, by decide⟩

/-- C6 (amended): on the board 2h 2d 2c (trips, no flush suit), the
`[(3,1)]` arm of `quads_full_house` fires and `find_nuts` returns
`OneValue(Deuce)`: any holding containing the last Deuce (which makes quads)
is the nuts — not pocket Aces, which only make a full house under the live
case-quads card. -/
theorem c6_amended :
    findNutsCards [⟨.Deuce, .Hearts⟩, ⟨.Deuce, .Diamonds⟩, ⟨.Deuce, .Clubs⟩]
      = some (.OneValue .Deuce) ∧
    quadsFullHouse [⟨.Deuce, .Hearts⟩, ⟨.Deuce, .Diamonds⟩, ⟨.Deuce, .Clubs⟩]
      = some (.OneValue .Deuce) := by
  refine ⟨by decide, by decide⟩

/-- C7: on a board whose card list has no 3-flush suit, no repeated rank,
and for which the rank-run scan records no window solve at all, `find_nuts`
returns a pocket pair of the board's highest card value. -/
theorem c7_no_structure_pocket_pair (b : BoardCards) (rh : Value)
    (hflush : flushCards b.toVec = none)
    (hpair : paired b.toVec = false)
    (hscan : straightScan b.toVec true = some (rh, [])) :
    b.findNuts = some (.PocketPair (maxValueOr b.toVec)) := by
  unfold BoardCards.findNuts findNutsCards
  rw [hflush, hpair, hscan]
  simp

/-- C7 witness: the rainbow, unpaired, straight-dead board 2c 7d 9h yields
pocket Nines. -/
theorem c7_witness :
    (BoardCards.Flop ⟨.Deuce, .Clubs⟩ ⟨.Seven, .Diamonds⟩ ⟨.Nine, .Hearts⟩).findNuts
      = some (.PocketPair .Nine) := by
  have h := c7_no_structure_pocket_pair
    (.Flop ⟨.Deuce, .Clubs⟩ ⟨.Seven, .Diamonds⟩ ⟨.Nine, .Hearts⟩) .Ace
    (by decide) (by decide) (by decide)
  rw [h]; decide

/-- C8: the two orderings of the card set {As, Ks} are equal under the
custom `PartialEq` (which sorts first), yet the derived `Hash` feeds the
hasher the fields in stored order, so the two hash input streams differ:
the code violates the claimed "hashing on a canonically sorted copy" (and
with it Rust's `Hash`/`Eq` consistency contract). -/
theorem c8_eq_but_hash_order_dependent :
    ccEqb [⟨.Ace, .Spades⟩, ⟨.King, .Spades⟩] [⟨.King, .Spades⟩, ⟨.Ace, .Spades⟩] = true ∧
    hashFeed [⟨.Ace, .Spades⟩, ⟨.King, .Spades⟩]
      ≠ hashFeed [⟨.King, .Spades⟩, ⟨.Ace, .Spades⟩] := by
  refine ⟨by decide, by decide⟩

/-- C9: `find_nuts` does panic on validly constructed, duplicate-free
boards, contradicting the no-panic claim: on the turn board Ah Kh 2h 2c
(paired and flush-possible, no straight-flush window) the shadowed `cards`
binding hands `quads_full_house` the flush-suit cards Ah Kh 2h, whose
multiplicity shape `[(1,3)]` matches no arm and hits `unreachable!()`;
on the (valid) preflop board the `expect` on the empty value set in
`straight_scan` panics. -/
theorem c9_panic_on_valid_boards :
    (BoardCards.Turn ⟨.Ace, .Hearts⟩ ⟨.King, .Hearts⟩ ⟨.Deuce, .Hearts⟩
        ⟨.Deuce, .Clubs⟩).validb = true ∧
    (BoardCards.Turn ⟨.Ace, .Hearts⟩ ⟨.King, .Hearts⟩ ⟨.Deuce, .Hearts⟩
        ⟨.Deuce, .Clubs⟩).findNuts = none ∧
    BoardCards.Preflop.validb = true ∧
    BoardCards.Preflop.findNuts = none := by
  refine ⟨by decide, by decide, by decide, by decide⟩

/-- C10: `Board::is_nuts` applies only the structural membership test of the
descriptor and never checks disjointness from the board: on the board
2c 7d 9h the hole {9h, 9c} shares the card 9h with the board, yet
`is_nuts` returns true (the descriptor is pocket Nines). -/
theorem c10_is_nuts_ignores_board_overlap :
    (⟨.Nine, .Hearts⟩ : Card) ∈
      (BoardCards.Flop ⟨.Deuce, .Clubs⟩ ⟨.Seven, .Diamonds⟩ ⟨.Nine, .Hearts⟩).toVec ∧
    holeContainsCard (⟨.Nine, .Hearts⟩, ⟨.Nine, .Clubs⟩) ⟨.Nine, .Hearts⟩ = true ∧
    (BoardCards.Flop ⟨.Deuce, .Clubs⟩ ⟨.Seven, .Diamonds⟩ ⟨.Nine, .Hearts⟩).isNuts
      (⟨.Nine, .Hearts⟩, ⟨.Nine, .Clubs⟩) = some true := by
  refine ⟨by decide, by decide, by decide⟩

end Pokerbot
